import Mathlib

/-!
Verification of the seano shared-format graph/tree layer:
field merge tool, note→release field copy, transitive reduction,
sticky field propagation, backstory coloring, risk aggregation, and the
hierarchical-list (hlist) merge.  Python dicts are modelled as association
lists keyed by `String`; in-place mutation is modelled by explicit state
passing; recursion over the release DAG is modelled with an explicit fuel
parameter (`none` = fuel exhausted, which on a well-formed acyclic DAG never
happens for large enough fuel).
-/

namespace SeanoFmt

/-- `lookupA l k` models Python `d.get(k)` / `d[k]` on a dict represented as an
association list: the first binding of `k` wins. -/
def lookupA {β : Type} : List (String × β) → String → Option β
  | [], _ => none
  | (k, v) :: rest, key => if k = key then some v else lookupA rest key

/-- Replace every binding of `k` by `(k, v)` (a dict holds at most one). -/
def mapReplace {β : Type} : List (String × β) → String → β → List (String × β)
  | [], _, _ => []
  | (k1, v1) :: rest, k, v =>
    if k1 = k then (k, v) :: mapReplace rest k v
    else (k1, v1) :: mapReplace rest k v

/-- `setA l k v` models Python `d[k] = v`: if the key is present its binding is
replaced in place, otherwise the binding is appended at the end (dict insertion
order). -/
def setA {β : Type} (l : List (String × β)) (k : String) (v : β) :
    List (String × β) :=
  if (lookupA l k).isSome then mapReplace l k v else l ++ [(k, v)]

/-- `seano_field_mergetool_opaque` from `schema_plumbing.py`.  The merge of an
opaque type: a privileged base wins outright; otherwise all additions must be
equal and non-empty; on failure the additions are reported (the exception
payload). -/
def seano_field_mergetool_opaque {α : Type} [DecidableEq α]
    (does_privileged_base_exist : Bool) (privileged_base : α)
    (additions : List α) : Except (List α) α :=
  if does_privileged_base_exist then Except.ok privileged_base
  else
    match additions with
    | [] => Except.error []
    | a :: _ =>
      if additions.all (fun x => decide (x = a)) then Except.ok a
      else Except.error additions

/-- A release record as the plumbing functions see it: a name, the names of its
parent (`after`) releases, its notes (each a dict of opaque field values), and
its own opaque fields.  `notes` and `after` are kept apart from the opaque
field dict: the plumbing reads them structurally and only ever writes the
fields named in its `fields` argument. -/
structure SRelease (V : Type) where
  name : String
  after : List String
  notes : List (List (String × V))
  fields : List (String × V)
deriving DecidableEq, Repr

/-- The payload of an annotated `SeanoSchemaPaintingException`: the release
name, the field, and the conflicting values from the original message. -/
structure PErr (V : Type) where
  release : String
  field : String
  values : List (Option V)
deriving DecidableEq, Repr

/-- The values of field `f` found among the notes of `r`
(`[n[f] for n in r['notes'] if f in n]`). -/
def noteValues {V : Type} (r : SRelease V) (f : String) : List V :=
  r.notes.filterMap (fun n => lookupA n f)

/-- One field of one release inside `seano_copy_note_fields_to_releases`:
collect the note values, and if any exist merge them onto the release with the
release's own value (if set) as privileged base. -/
def copyField1 {V : Type} [DecidableEq V] (r : SRelease V) (f : String) :
    Except (PErr V) (SRelease V) :=
  let values := noteValues r f
  if values.isEmpty then Except.ok r
  else
    match seano_field_mergetool_opaque (lookupA r.fields f).isSome
        (lookupA r.fields f) (values.map some) with
    | Except.ok (some v) => Except.ok { r with fields := setA r.fields f v }
    | Except.ok none => Except.ok r
    | Except.error vs => Except.error ⟨r.name, f, vs⟩

/-- The inner `for f in fields` loop of `seano_copy_note_fields_to_releases`
over one release; the exception aborts the loop, leaving earlier writes in
place. -/
def copyFieldsRelease {V : Type} [DecidableEq V] (r : SRelease V) :
    List String → SRelease V × Option (PErr V)
  | [] => (r, none)
  | f :: rest =>
    match copyField1 r f with
    | Except.ok r' => copyFieldsRelease r' rest
    | Except.error e => (r, some e)

/-- `seano_copy_note_fields_to_releases` from `schema_plumbing.py`.  The result
is the release list as left in memory together with the raised exception, if
any: on an exception the releases processed so far keep their new values and
the remaining releases are untouched. -/
def seano_copy_note_fields_to_releases {V : Type} [DecidableEq V] :
    List (SRelease V) → List String → List (SRelease V) × Option (PErr V)
  | [], _ => ([], none)
  | r :: rest, fs =>
    match copyFieldsRelease r fs with
    | (r', none) =>
      let (rest', e) := seano_copy_note_fields_to_releases rest fs
      (r' :: rest', e)
    | (r', some e) => (r' :: rest, some e)

/-! ### Transitive reduction engine (`get_ancestor_inheritance`,
`get_non_transitive_parents` in `seano_propagate_sticky_release_fields`) -/

/-- Work item for the ancestor-closure computation: one node, or a list of
nodes whose closures are to be united. -/
inductive ClosTask where
  | node : String → ClosTask
  | nodes : List String → ClosTask

/-- The recursion of `get_ancestor_inheritance` from `schema_plumbing.py`:
the ancestor closure of a node is `{node} ∪ ⋃ closure(parent)`.  The graph `g`
maps a release name to the names in its `after` list.  The Python memo cache
only affects running time, so it is not modelled; the fuel bounds the
recursion depth and the result is `none` only when the fuel runs out (which on
an acyclic DAG never happens for large enough fuel).  The result list is used
purely as a set (membership only). -/
def closStep (g : String → List String) : Nat → ClosTask → Option (List String)
  | 0, _ => none
  | fuel + 1, .node n => (closStep g fuel (.nodes (g n))).map (fun s => n :: s)
  | _ + 1, .nodes [] => some []
  | fuel + 1, .nodes (p :: ps) =>
    (closStep g fuel (.node p)).bind fun s =>
      (closStep g fuel (.nodes ps)).map fun t => s ++ t

/-- `get_ancestor_inheritance` proper. -/
def get_ancestor_inheritance (g : String → List String) (fuel : Nat)
    (n : String) : Option (List String) :=
  closStep g fuel (.node n)

/-- Union of the ancestor closures of a list of nodes
(`set().union(*[get_ancestor_inheritance(x) for x in ...])`). -/
def ancClosureL (g : String → List String) (fuel : Nat) (l : List String) :
    Option (List String) :=
  closStep g fuel (.nodes l)

/-- The `for candidate in list(result)` loop of `get_non_transitive_parents`:
iterate over the frozen copy of the original parent list, removing from the
current `result` every candidate found in the union of the ancestor closures
of the *other* members of the current `result`.  `List.erase` models Python's
`list.remove` (first occurrence). -/
def ntpLoop (g : String → List String) (fuel : Nat) :
    List String → List String → Option (List String)
  | [], result => some result
  | c :: rest, result =>
    match ancClosureL g fuel (result.filter (fun x => decide (x ≠ c))) with
    | none => none
    | some u =>
      ntpLoop g fuel rest (if c ∈ u then result.erase c else result)

/-- `get_non_transitive_parents` from `schema_plumbing.py`: the direct parents
of `n` minus those reachable through the ancestor closure of a different
member of the (shrinking) parent list. -/
def get_non_transitive_parents (g : String → List String) (fuel : Nat)
    (n : String) : Option (List String) :=
  ntpLoop g fuel (g n) (g n)

/-- Declarative ancestor closure: `AncRefl g n m` holds iff `m` is `n` itself
or an ancestor of `n` along `after` edges — the membership predicate of
`get_ancestor_inheritance`'s result. -/
inductive AncRefl (g : String → List String) : String → String → Prop
  | refl (n : String) : AncRefl g n n
  | step {n p m : String} : p ∈ g n → AncRefl g p m → AncRefl g n m

/-! ### Sticky field propagation (`seano_propagate_sticky_release_fields`) -/

/-- Find a release by name in the releases list (`releases_lookup[name]`);
names are assumed unique, as they are in a seano release list. -/
def lookupRel {V : Type} : List (SRelease V) → String → Option (SRelease V)
  | [], _ => none
  | r :: rest, nm => if r.name = nm then some r else lookupRel rest nm

/-- Update the release named `nm` in place (the Python code mutates the shared
dict object; with unique names this is the same). -/
def updateRel {V : Type} (rs : List (SRelease V)) (nm : String)
    (f : SRelease V → SRelease V) : List (SRelease V) :=
  rs.map (fun r => if r.name = nm then f r else r)

/-- One field of one release inside `process_release`: gather the values of
`f` carried by the non-transitive parents of `nm` (read from the *current*
release state `rs`), and merge them onto the release with its own current
value as privileged base.  Returns `none` on fuel exhaustion, otherwise the
new state plus the raised exception, if any. -/
def stickyField1 {V : Type} [DecidableEq V] (g : String → List String)
    (fuel : Nat) (rs : List (SRelease V)) (nm f : String) :
    Option (List (SRelease V) × Option (PErr V)) :=
  match get_non_transitive_parents g fuel nm with
  | none => none
  | some ps =>
    let vals := (ps.filterMap (fun p => lookupRel rs p)).filterMap
      (fun r => lookupA r.fields f)
    if vals.isEmpty then some (rs, none)
    else
      match lookupRel rs nm with
      | none => some (rs, none)
      | some r =>
        match seano_field_mergetool_opaque (lookupA r.fields f).isSome
            (lookupA r.fields f) (vals.map some) with
        | Except.ok (some v) =>
          some (updateRel rs nm (fun r => { r with fields := setA r.fields f v }),
            none)
        | Except.ok none => some (rs, none)
        | Except.error vs => some (rs, some ⟨nm, f, vs⟩)

/-- The `for f in fields` loop of `process_release`; an exception aborts the
loop but earlier writes remain. -/
def stickyFields {V : Type} [DecidableEq V] (g : String → List String)
    (fuel : Nat) (rs : List (SRelease V)) (nm : String) :
    List String → Option (List (SRelease V) × Option (PErr V))
  | [] => some (rs, none)
  | f :: rest =>
    match stickyField1 g fuel rs nm f with
    | none => none
    | some (rs', some e) => some (rs', some e)
    | some (rs', none) => stickyFields g fuel rs' nm rest

/-- Work item for the `process_release` recursion: one release name, or a
list of names (a `for` loop over parents or over the top-level list). -/
inductive ProcTask where
  | one : String → ProcTask
  | many : List String → ProcTask

/-- `process_release` from `seano_propagate_sticky_release_fields` together
with its enclosing `for` loops: skip a release if already seen, otherwise mark
it seen, process all direct parents first, then merge each requested field
from the non-transitive parents.  State is the current releases list plus the
`_seen_releases` set; an exception aborts everything above it. -/
def procStep {V : Type} [DecidableEq V] (g : String → List String)
    (cf : Nat) (fields : List String) :
    Nat → List (SRelease V) × List String → ProcTask →
      Option ((List (SRelease V) × List String) × Option (PErr V))
  | 0, _, _ => none
  | fu + 1, (rs, seen), .one nm =>
    if nm ∈ seen then some ((rs, seen), none)
    else
      match procStep g cf fields fu (rs, nm :: seen) (.many (g nm)) with
      | none => none
      | some (st, some e) => some (st, some e)
      | some ((rs2, seen2), none) =>
        match stickyFields g cf rs2 nm fields with
        | none => none
        | some (rs3, oe) => some ((rs3, seen2), oe)
  | _ + 1, st, .many [] => some (st, none)
  | fu + 1, st, .many (m :: ms) =>
    match procStep g cf fields fu st (.one m) with
    | none => none
    | some (st', some e) => some (st', some e)
    | some (st', none) => procStep g cf fields fu st' (.many ms)

/-- `process_release` proper. -/
def process_release {V : Type} [DecidableEq V] (g : String → List String)
    (cf : Nat) (fields : List String) (fu : Nat)
    (st : List (SRelease V) × List String) (nm : String) :
    Option ((List (SRelease V) × List String) × Option (PErr V)) :=
  procStep g cf fields fu st (.one nm)

/-- `seano_propagate_sticky_release_fields` from `schema_plumbing.py`.  The
adjacency function is taken from the initial list: the `after` lists are never
written by this function, so the dynamic reads in the Python code always see
these values.  Returns the final releases list plus the raised exception, if
any (`none` = fuel exhausted). -/
def seano_propagate_sticky_release_fields {V : Type} [DecidableEq V]
    (rs : List (SRelease V)) (fields : List String) (fuel : Nat) :
    Option (List (SRelease V) × Option (PErr V)) :=
  let g := fun nm => ((lookupRel rs nm).map (fun r => r.after)).getD []
  match procStep g fuel fields fuel (rs, [])
      (.many (rs.reverse.map (fun r => r.name))) with
  | none => none
  | some ((rs', _), oe) => some (rs', oe)

/-! ### Backstory coloring (`seano_paint_backstory_releases` in
`schema_painting.py`)

The graph `g` maps a release name to its `after` list, each entry being the
parent's name together with the edge's static `is-backstory` tag
(`x.get('is-backstory', False)` on the after-association dict).  The painted
per-release `is-backstory` flags live in a separate association list `σ`:
writing `cdm.named_releases[name]['is-backstory']` never changes the
after-association dicts read by the traversal. -/

/-- Work item for the backstory traversal: paint one release with an inbound
value, or paint a list of parents each with the same inbound value. -/
inductive PaintTask where
  | one : String → Bool → PaintTask
  | many : List String → Bool → PaintTask

/-- The recursive `paint(name, is_backstory)` helper: set the flag, then
recurse into the backstory-tagged parents with `True`, then into the plain
parents with the caller's value. -/
def paintStep (g : String → List (String × Bool)) :
    Nat → List (String × Bool) → PaintTask → Option (List (String × Bool))
  | 0, _, _ => none
  | fu + 1, σ, .one n b =>
    match paintStep g fu (setA σ n b)
        (.many (((g n).filter (fun e => e.2)).map (fun e => e.1)) true) with
    | none => none
    | some σ2 =>
      paintStep g fu σ2
        (.many (((g n).filter (fun e => !e.2)).map (fun e => e.1)) b)
  | _ + 1, σ, .many [] _ => some σ
  | fu + 1, σ, .many (m :: ms) b =>
    match paintStep g fu σ (.one m b) with
    | none => none
    | some σ' => paintStep g fu σ' (.many ms b)

/-- `seano_paint_backstory_releases`: paint the start release with `False` and
walk all ancestors.  Result: the painted `is-backstory` flags by release name
(`none` = fuel exhausted; never happens on an acyclic DAG with enough fuel). -/
def seano_paint_backstory_releases (g : String → List (String × Bool))
    (start : String) (fuel : Nat) : Option (List (String × Bool)) :=
  paintStep g fuel [] (.one start false)

/-- A path in the release DAG from `start` up to an ancestor, together with
whether any edge on the path carries the `is-backstory` tag.  `PathTo g start
m b` holds iff the traversal can reach `m` along a concrete ancestor path
whose backstory-tag status is `b`. -/
inductive PathTo (g : String → List (String × Bool)) (start : String) :
    String → Bool → Prop
  | refl : PathTo g start start false
  | step {n b m t} : PathTo g start n b → (m, t) ∈ g n →
      PathTo g start m (b || t)

/-- Plain ancestor reachability along `after` edges, tags ignored. -/
inductive ReachB (g : String → List (String × Bool)) (start : String) :
    String → Prop
  | refl : ReachB g start start
  | step {n m t} : ReachB g start n → (m, t) ∈ g n → ReachB g start m

/-! ### Risk aggregation (`seano_paint_release_risk_levels`) -/

/-- A release as the risk painter sees it: the `risk` field (`none` = key
absent, `some none` = key present with value `None`), and the notes, each a
dict whose `risk` entry may itself be null. -/
structure RRelease where
  risk : Option (Option String)
  notes : List (List (String × Option String))
deriving DecidableEq, Repr

/-- `[x.get('risk') for x in release['notes']]`. -/
def riskLevels (r : RRelease) : List (Option String) :=
  r.notes.map (fun n => (lookupA n "risk").getD none)

/-- The body of the `for release in cdm.releases` loop of
`seano_paint_release_risk_levels`: skip releases that already carry a `risk`
key; otherwise assign the highest rank present among the notes, or `''` if
some note declared a non-null risk, or `None` if none did. -/
def paintRisk1 (r : RRelease) : RRelease :=
  if r.risk.isSome then r
  else
    let levels := riskLevels r
    if some "high" ∈ levels then { r with risk := some (some "high") }
    else if some "medium" ∈ levels then { r with risk := some (some "medium") }
    else if some "low" ∈ levels then { r with risk := some (some "low") }
    else if levels.any (fun x => x.isSome) then { r with risk := some (some "") }
    else { r with risk := some none }

/-- `seano_paint_release_risk_levels` from `schema_painting.py`. -/
def seano_paint_release_risk_levels (rs : List RRelease) : List RRelease :=
  rs.map paintRisk1

/-! ### HList merge (`seano_cascade_hlist` in `hlist.py`) -/

/-- A YAML-shaped value as `add_or_append` receives it: a string, a dict
(label to sub-values), or a list.  Dict equality is modelled as ordered-pair
equality; the claims only ever compare string-shaped values, where this agrees
with Python. -/
inductive YVal where
  | s : String → YVal
  | m : List (String × YVal) → YVal
  | l : List YVal → YVal

/-- Work item for Python `==` on YAML values. -/
inductive YBeqTask where
  | v : YVal → YVal → YBeqTask
  | ps : List (String × YVal) → List (String × YVal) → YBeqTask
  | ls : List YVal → List YVal → YBeqTask

/-- Python `==` on YAML values, used by `add_or_append` to match heads;
fuel-bounded (any fuel exceeding the value depth is exact).  Dict equality is
modelled as ordered-pair equality; the claims only compare string-shaped
values, where this agrees with Python. -/
def ybeqStep : Nat → YBeqTask → Bool
  | 0, _ => false
  | _ + 1, .v (.s a) (.s b) => a == b
  | fu + 1, .v (.m a) (.m b) => ybeqStep fu (.ps a b)
  | fu + 1, .v (.l a) (.l b) => ybeqStep fu (.ls a b)
  | _ + 1, .v _ _ => false
  | _ + 1, .ps [] [] => true
  | fu + 1, .ps ((k1, v1) :: r1) ((k2, v2) :: r2) =>
    k1 == k2 && ybeqStep fu (.v v1 v2) && ybeqStep fu (.ps r1 r2)
  | _ + 1, .ps _ _ => false
  | _ + 1, .ls [] [] => true
  | fu + 1, .ls (a :: r1) (b :: r2) =>
    ybeqStep fu (.v a b) && ybeqStep fu (.ls r1 r2)
  | _ + 1, .ls _ _ => false

/-- An hlist node, `{'head': ..., 'tags': [...], 'children': [...]}`. -/
inductive HNode where
  | mk : YVal → List Nat → List HNode → HNode

def HNode.head : HNode → YVal
  | .mk h _ _ => h

def HNode.tags : HNode → List Nat
  | .mk _ t _ => t

def HNode.children : HNode → List HNode
  | .mk _ _ c => c

def HNode.withChildren : HNode → List HNode → HNode
  | .mk h t _, c => .mk h t c

/-- Python iteration over a value: a list yields its elements, a string yields
its characters as one-character strings, a dict yields its keys. -/
def pyIter : YVal → List YVal
  | .l xs => xs
  | .s str => str.data.map (fun ch => .s (String.mk [ch]))
  | .m kvs => kvs.map (fun kv => .s kv.1)

/-- Replace the element at an index, if present. -/
def modifyAt {α : Type} : List α → Nat → (α → α) → List α
  | [], _, _ => []
  | a :: as_, 0, f => f a :: as_
  | a :: as_, n + 1, f => a :: modifyAt as_ n f

/-- The non-dict arm of `add_or_append`: look for a child of `dst` with the
same head (Python `x['head'] == obj`, with `bfu` fuel for the comparison); if
found append the tag to its tag list, else append a brand-new child with a
singleton tag list.  Returns the updated parent and the index of the
morally-returned child node. -/
def addLeafIdx (bfu : Nat) (dst : HNode) (obj : YVal) (t : Nat) : HNode × Nat :=
  match dst.children.findIdx? (fun c => ybeqStep bfu (.v c.head obj)) with
  | some i =>
    (dst.withChildren (modifyAt dst.children i
      (fun c => HNode.mk c.head (c.tags ++ [t]) c.children)), i)
  | none =>
    (dst.withChildren (dst.children ++ [HNode.mk obj [t] []]),
      dst.children.length)

/-- Work item for the `add_or_append` recursion: a single value, the
`for head, subheads in obj.items()` loop, or the `for subhead in subheads`
loop. -/
inductive HTask where
  | one : YVal → HTask
  | pairs : List (String × YVal) → HTask
  | subs : List YVal → HTask

/-- `add_or_append` from `hlist.py`.  A dict merges each key as a head and
recurses into the iterated sub-values against the (possibly newly merged)
child; anything else is treated as a plain head.  Fuel-bounded: `none` only on
fuel exhaustion. -/
def hlistStep (bfu : Nat) : Nat → HNode → HTask → Nat → Option HNode
  | 0, _, _, _ => none
  | fu + 1, dst, .one (.m kvs), t => hlistStep bfu fu dst (.pairs kvs) t
  | _ + 1, dst, .one other, t => some (addLeafIdx bfu dst other t).1
  | _ + 1, dst, .pairs [], _ => some dst
  | fu + 1, dst, .pairs ((k, v) :: rest), t =>
    let p := addLeafIdx bfu dst (.s k) t
    match p.1.children.get? p.2 with
    | none => none
    | some node =>
      match hlistStep bfu fu node (.subs (pyIter v)) t with
      | none => none
      | some node' =>
        hlistStep bfu fu (p.1.withChildren (modifyAt p.1.children p.2 (fun _ => node')))
          (.pairs rest) t
  | _ + 1, node, .subs [], _ => some node
  | fu + 1, node, .subs (sh :: rest), t =>
    match hlistStep bfu fu node (.one sh) t with
    | none => none
    | some node' => hlistStep bfu fu node' (.subs rest) t

/-- `add_or_append` proper. -/
def add_or_append (bfu fu : Nat) (dst : HNode) (obj : YVal) (t : Nat) :
    Option HNode :=
  hlistStep bfu fu dst (.one obj) t

/-- A note as `seano_cascade_hlist` sees it: a dict from field key to a
localization dict from locale to a bullet value. -/
def HNote : Type := List (String × List (String × YVal))

/-- `(n.get(key, None) or {}).get('en-US', None) or []`, iterated: the bullet
sequence contributed by one note. -/
def noteBullets (n : HNote) (key : String) : List YVal :=
  match lookupA n key with
  | none => []
  | some locs =>
    match lookupA locs "en-US" with
    | none => []
    | some y => pyIter y

/-- The `for n in notes` loop of `seano_cascade_hlist`, threading the root and
the increasing tag. -/
def cascadeNotes (key : String) (fuel : Nat) :
    List HNote → HNode → Nat → Option HNode
  | [], root, _ => some root
  | n :: rest, root, tag =>
    match hlistStep fuel fuel root (.subs (noteBullets n key)) (tag + 1) with
    | none => none
    | some root' => cascadeNotes key fuel rest root' (tag + 1)

/-- `seano_cascade_hlist` from `hlist.py`: merge the hlists of all notes under
`key` into the children list of a synthetic root.  Tags start at 1 and
increment for every note, contributing or not. -/
def seano_cascade_hlist (notes : List HNote) (key : String) (fuel : Nat) :
    Option (List HNode) :=
  (cascadeNotes key fuel notes (HNode.mk (.s "") [] []) 0).map
    (fun root => root.children)

/-! ### Concrete release DAGs and notes used as test inputs -/

/-- The diamond DAG `A→B→D, A→C→D` of the transitive-reduction example. -/
def gDiamond : String → List String := fun s =>
  if s = "D" then ["B", "C"]
  else if s = "B" then ["A"]
  else if s = "C" then ["A"]
  else []

/-- Chain `A(min_os=10) → B → C` for the sticky-propagation example, listed
newest first as a seano release list. -/
def rsChain : List (SRelease Nat) :=
  [⟨"C", ["B"], [], []⟩, ⟨"B", ["A"], [], []⟩, ⟨"A", [], [], [("min_os", 10)]⟩]

/-- Releases for the propagation atomicity example: `C` inherits `f` from `A`
before the conflicting merge at `D` (parents `A` with `f=1` and `B` with
`f=2`) raises. -/
def rsSticky9 : List (SRelease Nat) :=
  [⟨"D", ["A", "B"], [], []⟩, ⟨"C", ["A"], [], []⟩,
   ⟨"B", [], [], [("f", 2)]⟩, ⟨"A", [], [], [("f", 1)]⟩]

/-- Releases for the copy atomicity example: `R1`'s notes agree on `f`, `R2`'s
notes conflict. -/
def rsCopy9 : List (SRelease Nat) :=
  [⟨"R1", [], [[("f", 5)]], []⟩, ⟨"R2", [], [[("f", 1)], [("f", 2)]], []⟩]

/-- Backstory counterexample DAG: `X` has plain edges to `P1` and `P2`; the
edge `P1 → Y` carries the backstory tag while `P2 → Y` is plain. -/
def gBackCex : String → List (String × Bool) := fun s =>
  if s = "X" then [("P1", false), ("P2", false)]
  else if s = "P1" then [("Y", true)]
  else if s = "P2" then [("Y", false)]
  else []

/-- Backstory witness DAG: a single backstory-tagged edge `X → Y`. -/
def gBackW : String → List (String × Bool) := fun s =>
  if s = "X" then [("Y", true)] else []

/-- A release with two notes both carrying `risk: null`. -/
def rrNullNull : RRelease := ⟨none, [[("risk", none)], [("risk", none)]]⟩

/-- A note contributing a `macOS` hlist with two children. -/
def hnMac1 : HNote :=
  [("k", [("en-US", YVal.l [YVal.m [("macOS", YVal.l [YVal.s "panther", YVal.s "tiger"])]])])]

/-- A second note contributing a `macOS` hlist with a different child list. -/
def hnMac2 : HNote :=
  [("k", [("en-US", YVal.l [YVal.m [("macOS", YVal.l [YVal.s "lion"])]])])]

/-- A note holding a dict that maps `cat` to the bare string `bird`. -/
def hnCat : HNote :=
  [("k", [("en-US", YVal.l [YVal.m [("cat", YVal.s "bird")]])])]

/-- Whether a merge raised (the Python call sites catch and re-raise
`SeanoSchemaPaintingException`). -/
def isError {ε α : Type} : Except ε α → Bool
  | Except.error _ => true
  | Except.ok _ => false

/-! ## Helper lemmas about the dict model -/

theorem lookupA_eq_none_iff {β : Type} (l : List (String × β)) (k : String) :
    lookupA l k = none ↔ ∀ p ∈ l, p.1 ≠ k := by
  induction l with
  | nil => simp [lookupA]
  | cons hd tl ih =>
    obtain ⟨k1, v1⟩ := hd
    by_cases hk : k1 = k
    · subst hk
      simp [lookupA]
    · simp [lookupA, hk, ih]

theorem lookupA_mapReplace_self {β : Type} (l : List (String × β)) (k : String)
    (v : β) :
    lookupA (mapReplace l k v) k = (lookupA l k).map (fun _ => v) := by
  induction l with
  | nil => simp [lookupA, mapReplace]
  | cons hd tl ih =>
    obtain ⟨k1, v1⟩ := hd
    by_cases hk : k1 = k
    · subst hk
      simp [lookupA, mapReplace, ih]
    · simp [lookupA, mapReplace, hk, ih]

theorem lookupA_mapReplace_other {β : Type} (l : List (String × β))
    (k k' : String) (v : β) (hne : k' ≠ k) :
    lookupA (mapReplace l k v) k' = lookupA l k' := by
  induction l with
  | nil => simp [lookupA, mapReplace]
  | cons hd tl ih =>
    obtain ⟨k1, v1⟩ := hd
    by_cases hk : k1 = k
    · subst hk
      simp [lookupA, mapReplace, Ne.symm hne, ih]
    · simp [lookupA, mapReplace, hk, ih]

theorem lookupA_append_none {β : Type} (l : List (String × β)) (k : String)
    (v : β) (h : lookupA l k = none) :
    lookupA (l ++ [(k, v)]) k = some v := by
  induction l with
  | nil => simp [lookupA]
  | cons hd tl ih =>
    obtain ⟨k1, v1⟩ := hd
    by_cases hk : k1 = k
    · subst hk
      simp [lookupA] at h
    · simp [lookupA, hk] at h ⊢
      exact ih h

theorem lookupA_append_other {β : Type} (l : List (String × β))
    (k k' : String) (v : β) (hne : k' ≠ k) :
    lookupA (l ++ [(k, v)]) k' = lookupA l k' := by
  induction l with
  | nil => simp [lookupA, Ne.symm hne]
  | cons hd tl ih =>
    obtain ⟨k1, v1⟩ := hd
    by_cases hk : k1 = k'
    · subst hk
      simp [lookupA]
    · simp [lookupA, hk, ih]

theorem lookupA_setA_self {β : Type} (l : List (String × β)) (k : String)
    (v : β) : lookupA (setA l k v) k = some v := by
  unfold setA
  by_cases h : (lookupA l k).isSome
  · simp only [h, if_true]
    rw [lookupA_mapReplace_self]
    obtain ⟨w, hw⟩ := Option.isSome_iff_exists.mp h
    simp [hw]
  · simp only [h, if_false]
    exact lookupA_append_none l k v (Option.not_isSome_iff_eq_none.mp h)

theorem lookupA_setA_other {β : Type} (l : List (String × β))
    (k k' : String) (v : β) (hne : k' ≠ k) :
    lookupA (setA l k v) k' = lookupA l k' := by
  unfold setA
  by_cases h : (lookupA l k).isSome
  · simp only [h, if_true]
    exact lookupA_mapReplace_other l k k' v hne
  · simp only [h, if_false]
    exact lookupA_append_other l k k' v hne

theorem mapReplace_mapReplace {β : Type} (l : List (String × β)) (k : String)
    (v : β) : mapReplace (mapReplace l k v) k v = mapReplace l k v := by
  induction l with
  | nil => simp [mapReplace]
  | cons hd tl ih =>
    obtain ⟨k1, v1⟩ := hd
    by_cases hk : k1 = k
    · subst hk
      simp [mapReplace, ih]
    · simp [mapReplace, hk, ih]

theorem mapReplace_append {β : Type} (l1 l2 : List (String × β)) (k : String)
    (v : β) :
    mapReplace (l1 ++ l2) k v = mapReplace l1 k v ++ mapReplace l2 k v := by
  induction l1 with
  | nil => simp [mapReplace]
  | cons hd tl ih =>
    obtain ⟨k1, v1⟩ := hd
    by_cases hk : k1 = k
    · subst hk
      simp [mapReplace, ih]
    · simp [mapReplace, hk, ih]

theorem mapReplace_of_none {β : Type} (l : List (String × β)) (k : String)
    (v : β) (h : lookupA l k = none) : mapReplace l k v = l := by
  rw [lookupA_eq_none_iff] at h
  induction l with
  | nil => simp [mapReplace]
  | cons hd tl ih =>
    obtain ⟨k1, v1⟩ := hd
    have hk : k1 ≠ k := h (k1, v1) (List.mem_cons_self _ _)
    simp only [mapReplace, if_neg hk]
    rw [ih (fun p hp => h p (List.mem_cons_of_mem _ hp))]

theorem setA_setA {β : Type} (l : List (String × β)) (k : String) (v : β) :
    setA (setA l k v) k v = setA l k v := by
  by_cases h : (lookupA l k).isSome
  · have h1 : setA l k v = mapReplace l k v := by simp [setA, h]
    have h2 : (lookupA (mapReplace l k v) k).isSome := by
      rw [lookupA_mapReplace_self]
      obtain ⟨w, hw⟩ := Option.isSome_iff_exists.mp h
      simp [hw]
    rw [h1]
    simp only [setA, h2, if_true]
    exact mapReplace_mapReplace l k v
  · have hnone := Option.not_isSome_iff_eq_none.mp h
    have h1 : setA l k v = l ++ [(k, v)] := by simp [setA, h]
    have h2 : (lookupA (l ++ [(k, v)]) k).isSome := by
      rw [lookupA_append_none l k v hnone]; rfl
    rw [h1]
    simp only [setA, h2, if_true]
    rw [mapReplace_append, mapReplace_of_none l k v hnone]
    simp [mapReplace]

/-! ## C3: privileged base always wins -/

/-- C3: with `does_privileged_base_exist` true the merge tool returns the
privileged base and never raises, whatever the additions; consequently
`seano_copy_note_fields_to_releases` never raises for a field the release
already carries, even when the notes disagree on it. -/
theorem mergetool_privileged_always_wins :
    (∀ (α : Type) [DecidableEq α] (p : α) (adds : List α),
        seano_field_mergetool_opaque true p adds = Except.ok p) ∧
    (∀ (V : Type) [DecidableEq V] (r : SRelease V) (f : String),
        (lookupA r.fields f).isSome = true →
        isError (copyField1 r f) = false) := by
  constructor
  · intro α inst p adds
    rfl
  · intro V inst r f h
    obtain ⟨w, hw⟩ := Option.isSome_iff_exists.mp h
    by_cases hv : (noteValues r f).isEmpty
    · simp [copyField1, hv, isError]
    · simp [copyField1, hv, hw, h, seano_field_mergetool_opaque, isError]

/-- C3 witness: a concrete release with an explicit field value and two
disagreeing notes; the merge returns the explicit value and the copy raises
nothing. -/
theorem mergetool_privileged_always_wins_witness :
    seano_field_mergetool_opaque true (3 : Nat) [1, 2] = Except.ok 3 ∧
    isError (copyField1 (⟨"R", [], [[("f", 1)], [("f", 2)]], [("f", 7)]⟩ : SRelease Nat) "f")
      = false :=
  ⟨mergetool_privileged_always_wins.1 Nat 3 [1, 2],
   mergetool_privileged_always_wins.2 Nat
     ⟨"R", [], [[("f", 1)], [("f", 2)]], [("f", 7)]⟩ "f" rfl⟩

/-! ## C4: unprivileged merge requires non-empty agreement -/

/-- C4: with `does_privileged_base_exist` false the merge raises exactly when
the additions are empty or contain two unequal values; otherwise it returns
the common value, independently of the order of the additions. -/
theorem mergetool_unprivileged_requires_agreement {α : Type} [DecidableEq α]
    (p : α) (adds : List α) :
    (isError ( seano_field_mergetool_opaque false p adds) = true ↔
      adds = [] ∨ ∃ a ∈ adds, ∃ b ∈ adds, a ≠ b) ∧
    (∀ v ∈ adds, (∀ a ∈ adds, a = v) → ∀ adds' : List α, adds.Perm adds' →
      seano_field_mergetool_opaque false p adds' = Except.ok v) := by
  constructor
  · match adds with
    | [] => simp [ seano_field_mergetool_opaque, isError]
    | a :: rest =>
      by_cases hall : ((a :: rest).all fun x => decide (x = a)) = true
      · have hok : seano_field_mergetool_opaque false p (a :: rest)
            = Except.ok a := by
          simp [ seano_field_mergetool_opaque, hall]
        rw [hok]
        simp only [List.all_eq_true, decide_eq_true_eq] at hall
        simp only [isError]
        constructor
        · intro h; exact absurd h (by simp)
        · rintro (h | ⟨x, hx, y, hy, hxy⟩)
          · exact absurd h (by simp)
          · exact absurd (by rw [hall x hx, hall y hy]) hxy
      · have herr : seano_field_mergetool_opaque false p (a :: rest)
            = Except.error (a :: rest) := by
          simp [ seano_field_mergetool_opaque, hall]
        rw [herr]
        simp only [List.all_eq_true, decide_eq_true_eq] at hall
        push_neg at hall
        obtain ⟨x, hx, hxa⟩ := hall
        simp only [isError, true_iff]
        exact Or.inr ⟨x, hx, a, List.mem_cons_self a rest, hxa⟩
  · intro v hv hall adds' hperm
    have hv' : v ∈ adds' := hperm.mem_iff.mp hv
    have hall' : ∀ a ∈ adds', a = v := fun a ha =>
      hall a (hperm.mem_iff.mpr ha)
    match adds', hv' with
    | a' :: rest', _ =>
      have ha' : a' = v := hall' a' (List.mem_cons_self a' rest')
      have hall2 : ((a' :: rest').all fun x => decide (x = a')) = true := by
        simp only [List.all_eq_true, decide_eq_true_eq]
        intro x hx
        rw [hall' x hx, ha']
      have hok : seano_field_mergetool_opaque false p (a' :: rest')
          = Except.ok a' := by
        simp [ seano_field_mergetool_opaque, hall2]
      rw [hok, ha']

/-- C4 witness: merging `[5, 5]` without a privileged base returns `5`. -/
theorem mergetool_unprivileged_requires_agreement_witness :
    seano_field_mergetool_opaque false (0 : Nat) [5, 5] = Except.ok 5 :=
  (mergetool_unprivileged_requires_agreement 0 [5, 5]).2 5 (by simp)
    (by intro a ha; simpa using ha) [5, 5] (List.Perm.refl _)

/-! ## C2: risk aggregation -/

/-- C2 counterexample: on a release whose notes all carry `risk: null`, the
code does not leave the `risk` field absent — it writes the key with value
null (`release['risk'] = None`), so the painted release's risk field is
`some none`, not `none`. -/
theorem risk_all_null_writes_null_key :
    (seano_paint_release_risk_levels [rrNullNull]).map (fun r => r.risk)
        = [some none] ∧
    ¬ (seano_paint_release_risk_levels [rrNullNull]).map (fun r => r.risk)
        = [none] := by
  constructor
  · rfl
  · intro h
    simp [seano_paint_release_risk_levels, rrNullNull, paintRisk1, riskLevels,
      lookupA] at h

/-- C2 (amended): for a release without a `risk` key the painter writes the
highest rank present among the notes' risk values; if no rank matches but some
note declares a non-null risk it writes the empty string; if every note's risk
is null (or there are no notes) it writes the key with value null — the key
becomes present, it is not left absent.  Releases already carrying a `risk`
key (any value) are unchanged. -/
theorem risk_assignment_characterization (r : RRelease) :
    (r.risk.isSome = true → paintRisk1 r = r) ∧
    (r.risk = none →
      ((paintRisk1 r).risk = some (some "high") ↔
        some "high" ∈ riskLevels r) ∧
      ((paintRisk1 r).risk = some (some "medium") ↔
        some "medium" ∈ riskLevels r ∧ some "high" ∉ riskLevels r) ∧
      ((paintRisk1 r).risk = some (some "low") ↔
        some "low" ∈ riskLevels r ∧ some "medium" ∉ riskLevels r ∧
          some "high" ∉ riskLevels r) ∧
      ((paintRisk1 r).risk = some (some "") ↔
        some "high" ∉ riskLevels r ∧ some "medium" ∉ riskLevels r ∧
          some "low" ∉ riskLevels r ∧ ∃ x ∈ riskLevels r, x.isSome) ∧
      ((paintRisk1 r).risk = some none ↔ ∀ x ∈ riskLevels r, x = none)) := by
  constructor
  · intro h
    simp [paintRisk1, h]
  · intro h
    by_cases h1 : some "high" ∈ riskLevels r
    · have hres : (paintRisk1 r).risk = some (some "high") := by
        simp [paintRisk1, h, h1]
      rw [hres]
      refine ⟨by simp [h1], by simp [h1], by simp [h1], by simp [h1], ?_⟩
      simp only [Option.some.injEq, iff_iff_implies_and_implies]
      refine ⟨fun hh => absurd hh (by simp), fun hall => ?_⟩
      exact absurd (hall _ h1) (by simp)
    · by_cases h2 : some "medium" ∈ riskLevels r
      · have hres : (paintRisk1 r).risk = some (some "medium") := by
          simp [paintRisk1, h, h1, h2]
        rw [hres]
        refine ⟨by simp [h1], by simp [h1, h2], by simp [h2], by simp [h2], ?_⟩
        simp only [Option.some.injEq, iff_iff_implies_and_implies]
        refine ⟨fun hh => absurd hh (by simp), fun hall => ?_⟩
        exact absurd (hall _ h2) (by simp)
      · by_cases h3 : some "low" ∈ riskLevels r
        · have hres : (paintRisk1 r).risk = some (some "low") := by
            simp [paintRisk1, h, h1, h2, h3]
          rw [hres]
          refine ⟨by simp [h1], by simp [h2], by simp [h1, h2, h3],
            by simp [h3], ?_⟩
          simp only [Option.some.injEq, iff_iff_implies_and_implies]
          refine ⟨fun hh => absurd hh (by simp), fun hall => ?_⟩
          exact absurd (hall _ h3) (by simp)
        · by_cases h4 : (riskLevels r).any (fun x => x.isSome) = true
          · have hres : (paintRisk1 r).risk = some (some "") := by
              simp [paintRisk1, h, h1, h2, h3, h4]
            rw [hres]
            obtain ⟨x, hx, hxs⟩ := List.any_eq_true.mp h4
            refine ⟨by simp [h1], by simp [h2], by simp [h3], ?_, ?_⟩
            · simp only [Option.some.injEq, iff_iff_implies_and_implies]
              exact ⟨fun _ => ⟨h1, h2, h3, x, hx, hxs⟩, fun _ => trivial⟩
            · simp only [Option.some.injEq, iff_iff_implies_and_implies]
              refine ⟨fun hh => absurd hh (by simp), fun hall => ?_⟩
              rw [hall x hx] at hxs
              exact absurd hxs (by simp)
          · have hres : (paintRisk1 r).risk = some none := by
              simp [paintRisk1, h, h1, h2, h3, h4]
            rw [hres]
            refine ⟨by simp [h1], by simp [h2], by simp [h3], ?_, ?_⟩
            · simp only [Option.some.injEq, iff_iff_implies_and_implies]
              refine ⟨fun hh => absurd hh (by simp), ?_⟩
              rintro ⟨_, _, _, x, hx, hxs⟩
              exact absurd (List.any_eq_true.mpr ⟨x, hx, hxs⟩) h4
            · simp only [eq_self_iff_true, true_iff]
              intro x hx
              cases x with
              | none => rfl
              | some s =>
                exact absurd (List.any_eq_true.mpr ⟨some s, hx, rfl⟩) h4

/-- C2 witness: notes with risks `[null, 'low']` yield `'low'`. -/
theorem risk_assignment_characterization_witness :
    (paintRisk1 ⟨none, [[("risk", none)], [("risk", some "low")]]⟩).risk
      = some (some "low") :=
  ((risk_assignment_characterization
      ⟨none, [[("risk", none)], [("risk", some "low")]]⟩).2 rfl).2.2.1.mpr
    (by decide)

/-! ## C6: sticky propagation along a chain -/

/-- C6: on the chain `A(min_os=10) → B → C` with no overrides, propagation
writes `min_os = 10` onto both `B` and `C` (parents are processed before the
release itself, and each release merges the values of its non-transitive
parents with its own value as privileged base). -/
theorem sticky_chain_propagates :
    seano_propagate_sticky_release_fields rsChain ["min_os"] 10
      = some ([⟨"C", ["B"], [], [("min_os", 10)]⟩,
               ⟨"B", ["A"], [], [("min_os", 10)]⟩,
               ⟨"A", [], [], [("min_os", 10)]⟩], none) := by
  decide

/-! ## C9: no atomicity on error -/

/-- C9: neither `seano_copy_note_fields_to_releases` nor
`seano_propagate_sticky_release_fields` is atomic on error: in each case the
exception escapes after earlier writes landed.  For the copy, `R1` (processed
first) keeps its merged `f = 5` while the conflict on `R2` raises; for the
propagation, `C` keeps the inherited `f = 1` while the conflicting ancestors
of `D` raise. -/
theorem painting_not_atomic_on_error :
    seano_copy_note_fields_to_releases rsCopy9 ["f"]
        = ([⟨"R1", [], [[("f", 5)]], [("f", 5)]⟩,
            ⟨"R2", [], [[("f", 1)], [("f", 2)]], []⟩],
           some ⟨"R2", "f", [some 1, some 2]⟩) ∧
    seano_propagate_sticky_release_fields rsSticky9 ["f"] 10
        = some ([⟨"D", ["A", "B"], [], []⟩,
                 ⟨"C", ["A"], [], [("f", 1)]⟩,
                 ⟨"B", [], [], [("f", 2)]⟩,
                 ⟨"A", [], [], [("f", 1)]⟩],
                some ⟨"D", "f", [some 1, some 2]⟩) := by
  constructor
  · decide
  · decide

/-! ## C10: a bare-string subhead list iterates characters -/

/-- C10: when a note's bullet dict maps a label to a bare string
(`{'cat': 'bird'}`), `add_or_append` iterates the string itself, producing one
child per character under the label instead of a single child holding the
whole string. -/
theorem hlist_string_subheads_iterate_chars :
    seano_cascade_hlist [hnCat] "k" 20
      = some [HNode.mk (YVal.s "cat") [1]
          [HNode.mk (YVal.s "b") [1] [], HNode.mk (YVal.s "i") [1] [],
           HNode.mk (YVal.s "r") [1] [], HNode.mk (YVal.s "d") [1] []]] := by
  rfl

/-! ## C8: hlist dedup merge -/

theorem modifyAt_length {α : Type} (l : List α) (n : Nat) (f : α → α) :
    (modifyAt l n f).length = l.length := by
  induction l generalizing n with
  | nil => simp [modifyAt]
  | cons a as ih =>
    cases n with
    | zero => simp [modifyAt]
    | succ m => simp [modifyAt, ih]

theorem modifyAt_get_same {α : Type} (l : List α) (n : Nat) (f : α → α) :
    (modifyAt l n f).get? n = (l.get? n).map f := by
  induction l generalizing n with
  | nil => simp [modifyAt]
  | cons a as ih =>
    cases n with
    | zero => simp [modifyAt]
    | succ m =>
      simp only [modifyAt, List.get?_cons_succ]
      exact ih m

theorem modifyAt_get_other {α : Type} (l : List α) (n j : Nat) (f : α → α)
    (hne : j ≠ n) : (modifyAt l n f).get? j = l.get? j := by
  induction l generalizing n j with
  | nil => simp [modifyAt]
  | cons a as ih =>
    cases n with
    | zero =>
      cases j with
      | zero => exact absurd rfl hne
      | succ i => simp [modifyAt]
    | succ m =>
      cases j with
      | zero => simp [modifyAt]
      | succ i =>
        simp only [modifyAt, List.get?_cons_succ]
        exact ih m i (fun hh => hne (by rw [hh]))

theorem withChildren_children (nd : HNode) (cs : List HNode) :
    (nd.withChildren cs).children = cs := by
  cases nd; rfl

/-- C8: each note receives the next integer tag, contributing or not; under a
given parent scope a label with an existing same-label child appends the tag
to that child's tag list in place, while an unseen label appends a new child
with a singleton tag list after all existing children; hence two notes both
carrying the top-level label `macOS` merge into one node with tags `[1, 2]`
whose children are the first note's children followed by the second note's,
and the merge of no notes is an empty children list. -/
theorem hlist_merge_dedup :
    (∀ (bfu : Nat) (dst : HNode) (obj : YVal) (t : Nat),
      (dst.children.findIdx? (fun c => ybeqStep bfu (.v c.head obj)) = none →
        (addLeafIdx bfu dst obj t).1.children
          = dst.children ++ [HNode.mk obj [t] []]) ∧
      (∀ i, dst.children.findIdx? (fun c => ybeqStep bfu (.v c.head obj)) = some i →
        (addLeafIdx bfu dst obj t).1.children.length = dst.children.length ∧
        (addLeafIdx bfu dst obj t).1.children.get? i
          = (dst.children.get? i).map
              (fun c => HNode.mk c.head (c.tags ++ [t]) c.children) ∧
        ∀ j, j ≠ i →
          (addLeafIdx bfu dst obj t).1.children.get? j = dst.children.get? j)) ∧
    seano_cascade_hlist [hnMac1, hnMac2] "k" 20
      = some [HNode.mk (YVal.s "macOS") [1, 2]
          [HNode.mk (YVal.s "panther") [1] [], HNode.mk (YVal.s "tiger") [1] [],
           HNode.mk (YVal.s "lion") [2] []]] ∧
    seano_cascade_hlist [[], hnMac1] "k" 20
      = some [HNode.mk (YVal.s "macOS") [2]
          [HNode.mk (YVal.s "panther") [2] [], HNode.mk (YVal.s "tiger") [2] []]] ∧
    seano_cascade_hlist [] "k" 20 = some [] := by
  refine ⟨?_, rfl, rfl, rfl⟩
  intro bfu dst obj t
  constructor
  · intro h
    unfold addLeafIdx
    rw [h]
    exact withChildren_children dst _
  · intro i h
    unfold addLeafIdx
    rw [h]
    simp only [withChildren_children]
    exact ⟨modifyAt_length _ _ _, modifyAt_get_same _ _ _,
      fun j hj => modifyAt_get_other _ _ _ _ hj⟩

/-- C8 witness: inserting a fresh label under an empty root appends a new
singleton-tagged child. -/
theorem hlist_merge_dedup_witness :
    (addLeafIdx 20 (HNode.mk (YVal.s "") [] []) (YVal.s "x") 1).1.children
      = [HNode.mk (YVal.s "x") [1] []] :=
  (hlist_merge_dedup.1 20 (HNode.mk (YVal.s "") [] []) (YVal.s "x") 1).1 rfl

/-! ## C7: idempotence of the note→release field copy -/

theorem mem_mapReplace {β : Type} {l : List (String × β)} {k : String} {v : β}
    {p : String × β} (hp : p ∈ mapReplace l k v) : p = (k, v) ∨ p ∈ l := by
  induction l with
  | nil => simp [mapReplace] at hp
  | cons hd tl ih =>
    obtain ⟨k1, v1⟩ := hd
    by_cases hk : k1 = k
    · simp only [mapReplace, if_pos hk] at hp
      rcases List.mem_cons.mp hp with h | h
      · exact Or.inl h
      · rcases ih h with h' | h'
        · exact Or.inl h'
        · exact Or.inr (List.mem_cons_of_mem _ h')
    · simp only [mapReplace, if_neg hk] at hp
      rcases List.mem_cons.mp hp with h | h
      · exact Or.inr (h ▸ List.mem_cons_self _ _)
      · rcases ih h with h' | h'
        · exact Or.inl h'
        · exact Or.inr (List.mem_cons_of_mem _ h')

theorem mem_setA {β : Type} {l : List (String × β)} {k : String} {v : β}
    {p : String × β} (hp : p ∈ setA l k v) : p = (k, v) ∨ p ∈ l := by
  unfold setA at hp
  by_cases hs : (lookupA l k).isSome
  · rw [if_pos hs] at hp
    exact mem_mapReplace hp
  · rw [if_neg hs] at hp
    rcases List.mem_append.mp hp with h | h
    · exact Or.inr h
    · exact Or.inl (by simpa using h)

theorem mapReplace_allF {β : Type} (l : List (String × β)) (k : String)
    (v : β) : ∀ p ∈ mapReplace l k v, p.1 = k → p = (k, v) := by
  induction l with
  | nil => simp [mapReplace]
  | cons hd tl ih =>
    obtain ⟨k1, v1⟩ := hd
    intro p hp hp1
    by_cases hk : k1 = k
    · simp only [mapReplace, if_pos hk] at hp
      rcases List.mem_cons.mp hp with h | h
      · exact h
      · exact ih p h hp1
    · simp only [mapReplace, if_neg hk] at hp
      rcases List.mem_cons.mp hp with h | h
      · subst h; exact absurd hp1 hk
      · exact ih p h hp1

theorem setA_allF {β : Type} (l : List (String × β)) (k : String) (v : β) :
    ∀ p ∈ setA l k v, p.1 = k → p = (k, v) := by
  intro p hp hp1
  unfold setA at hp
  by_cases hs : (lookupA l k).isSome
  · rw [if_pos hs] at hp
    exact mapReplace_allF l k v p hp hp1
  · rw [if_neg hs] at hp
    rcases List.mem_append.mp hp with h | h
    · have hnone := Option.not_isSome_iff_eq_none.mp hs
      rw [lookupA_eq_none_iff] at hnone
      exact absurd hp1 (hnone p h)
    · simpa using h

theorem setA_allF_other {β : Type} {l : List (String × β)} {f : String} {v : β}
    (hall : ∀ p ∈ l, p.1 = f → p = (f, v)) (f2 : String) (w : β)
    (hne : f ≠ f2) : ∀ p ∈ setA l f2 w, p.1 = f → p = (f, v) := by
  intro p hp hp1
  rcases mem_setA hp with h | h
  · subst h; exact absurd hp1 (by simpa using hne.symm)
  · exact hall p h hp1

theorem mapReplace_eq_self_of_allF {β : Type} {l : List (String × β)}
    {k : String} {v : β} (hall : ∀ p ∈ l, p.1 = k → p = (k, v)) :
    mapReplace l k v = l := by
  induction l with
  | nil => simp [mapReplace]
  | cons hd tl ih =>
    obtain ⟨k1, v1⟩ := hd
    by_cases hk : k1 = k
    · have heq : (k1, v1) = (k, v) := hall (k1, v1) (List.mem_cons_self _ _) hk
      simp only [mapReplace, if_pos hk]
      rw [ih (fun p hp => hall p (List.mem_cons_of_mem _ hp)), ← heq]
    · simp only [mapReplace, if_neg hk]
      rw [ih (fun p hp => hall p (List.mem_cons_of_mem _ hp))]

theorem setA_eq_self_of_allF {β : Type} {l : List (String × β)} {k : String}
    {v : β} (hs : (lookupA l k).isSome)
    (hall : ∀ p ∈ l, p.1 = k → p = (k, v)) : setA l k v = l := by
  unfold setA
  rw [if_pos hs]
  exact mapReplace_eq_self_of_allF hall

theorem copyField1_ok_shape {V : Type} [DecidableEq V] {r r' : SRelease V}
    {f : String} (h : copyField1 r f = Except.ok r') :
    r'.name = r.name ∧ r'.after = r.after ∧ r'.notes = r.notes ∧
      (r'.fields = r.fields ∨ ∃ w, r'.fields = setA r.fields f w) := by
  unfold copyField1 at h
  by_cases hemp : (noteValues r f).isEmpty
  · rw [if_pos hemp] at h
    cases h
    exact ⟨rfl, rfl, rfl, Or.inl rfl⟩
  · rw [if_neg hemp] at h
    rcases hm : seano_field_mergetool_opaque (lookupA r.fields f).isSome
        (lookupA r.fields f) ((noteValues r f).map some) with vs | ov
    · rw [hm] at h
      exact absurd h (by simp)
    · rw [hm] at h
      cases ov with
      | none =>
        cases h
        exact ⟨rfl, rfl, rfl, Or.inl rfl⟩
      | some v =>
        cases h
        exact ⟨rfl, rfl, rfl, Or.inr ⟨v, rfl⟩⟩

theorem merge_ok_none_absurd {V : Type} [DecidableEq V] (r : SRelease V)
    (f : String) (hne : ¬(noteValues r f).isEmpty = true) :
    ¬ seano_field_mergetool_opaque (lookupA r.fields f).isSome
        (lookupA r.fields f) ((noteValues r f).map some) = Except.ok none := by
  intro h
  by_cases hs : (lookupA r.fields f).isSome
  · obtain ⟨w, hw⟩ := Option.isSome_iff_exists.mp hs
    rw [hw] at h
    simp [ seano_field_mergetool_opaque] at h
  · cases hval : noteValues r f with
    | nil => rw [hval] at hne; simp at hne
    | cons a rest =>
      rw [hval] at h
      have hs' : (lookupA r.fields f).isSome = false := by
        simpa using hs
      rw [hs'] at h
      simp only [ seano_field_mergetool_opaque, Bool.false_eq_true, if_false,
        List.map_cons] at h
      split at h <;> simp at h

theorem copyField1_fix {V : Type} [DecidableEq V] {r : SRelease V} {f : String}
    (hinv : noteValues r f = [] ∨ ∃ v, lookupA r.fields f = some v ∧
      ∀ p ∈ r.fields, p.1 = f → p = (f, v)) :
    copyField1 r f = Except.ok r := by
  by_cases hemp : (noteValues r f).isEmpty
  · unfold copyField1
    rw [if_pos hemp]
  · rcases hinv with hemp' | ⟨v, hv, hall⟩
    · rw [hemp'] at hemp
      simp at hemp
    · have hs : (lookupA r.fields f).isSome := by rw [hv]; rfl
      have hm : seano_field_mergetool_opaque (lookupA r.fields f).isSome
          (lookupA r.fields f) ((noteValues r f).map some)
            = Except.ok (some v) := by
        simp [ seano_field_mergetool_opaque, hs, hv]
      unfold copyField1
      rw [if_neg hemp, hm]
      show Except.ok { r with fields := setA r.fields f v } = Except.ok r
      rw [setA_eq_self_of_allF hs hall]

theorem copyField1_estab {V : Type} [DecidableEq V] {r r' : SRelease V}
    {f : String} (h : copyField1 r f = Except.ok r') :
    noteValues r' f = [] ∨ ∃ v, lookupA r'.fields f = some v ∧
      ∀ p ∈ r'.fields, p.1 = f → p = (f, v) := by
  unfold copyField1 at h
  by_cases hemp : (noteValues r f).isEmpty
  · rw [if_pos hemp] at h
    cases h
    exact Or.inl (by simpa using hemp)
  · rw [if_neg hemp] at h
    rcases hm : seano_field_mergetool_opaque (lookupA r.fields f).isSome
        (lookupA r.fields f) ((noteValues r f).map some) with vs | ov
    · rw [hm] at h
      exact absurd h (by simp)
    · rw [hm] at h
      cases ov with
      | none => exact absurd hm (merge_ok_none_absurd r f hemp)
      | some v =>
        cases h
        exact Or.inr ⟨v, lookupA_setA_self _ _ _, setA_allF _ _ _⟩

theorem copyField1_preserve {V : Type} [DecidableEq V] {r2 r3 : SRelease V}
    {f f2 : String}
    (hinv : noteValues r2 f = [] ∨ ∃ v, lookupA r2.fields f = some v ∧
      ∀ p ∈ r2.fields, p.1 = f → p = (f, v))
    (h : copyField1 r2 f2 = Except.ok r3) :
    noteValues r3 f = [] ∨ ∃ v, lookupA r3.fields f = some v ∧
      ∀ p ∈ r3.fields, p.1 = f → p = (f, v) := by
  by_cases hf : f2 = f
  · subst hf
    rw [copyField1_fix hinv] at h
    cases h
    exact hinv
  · obtain ⟨_, _, hnotes, hfields⟩ := copyField1_ok_shape h
    have hnv : noteValues r3 f = noteValues r2 f := by
      unfold noteValues
      rw [hnotes]
    rcases hinv with hemp | ⟨v, hv, hall⟩
    · exact Or.inl (hnv.trans hemp)
    · rcases hfields with heq | ⟨w, heq⟩
      · exact Or.inr ⟨v, heq ▸ hv, heq ▸ hall⟩
      · refine Or.inr ⟨v, ?_, ?_⟩
        · rw [heq, lookupA_setA_other _ _ _ _ (fun hh => hf hh.symm)]
          exact hv
        · rw [heq]
          exact setA_allF_other hall f2 w (fun hh => hf hh.symm)

theorem copyFieldsRelease_inv {V : Type} [DecidableEq V] {r r' : SRelease V}
    {fs : List String} (h : copyFieldsRelease r fs = (r', none)) :
    (∀ f0, (noteValues r f0 = [] ∨ ∃ v, lookupA r.fields f0 = some v ∧
        ∀ p ∈ r.fields, p.1 = f0 → p = (f0, v)) →
      (noteValues r' f0 = [] ∨ ∃ v, lookupA r'.fields f0 = some v ∧
        ∀ p ∈ r'.fields, p.1 = f0 → p = (f0, v))) ∧
    (∀ f ∈ fs, noteValues r' f = [] ∨ ∃ v, lookupA r'.fields f = some v ∧
      ∀ p ∈ r'.fields, p.1 = f → p = (f, v)) := by
  induction fs generalizing r with
  | nil =>
    unfold copyFieldsRelease at h
    cases h
    exact ⟨fun _ hi => hi, by simp⟩
  | cons f rest ih =>
    unfold copyFieldsRelease at h
    rcases hc : copyField1 r f with e | r1
    · rw [hc] at h
      exact absurd h (by simp)
    · rw [hc] at h
      obtain ⟨P, Q⟩ := ih h
      refine ⟨fun f0 hi => P f0 (copyField1_preserve hi hc), ?_⟩
      intro f0 hf0
      rcases List.mem_cons.mp hf0 with hh | hh
      · subst hh
        exact P f0 (copyField1_estab hc)
      · exact Q f0 hh

theorem copyFieldsRelease_of_inv {V : Type} [DecidableEq V] {r : SRelease V}
    {fs : List String}
    (hall : ∀ f ∈ fs, noteValues r f = [] ∨ ∃ v, lookupA r.fields f = some v ∧
      ∀ p ∈ r.fields, p.1 = f → p = (f, v)) :
    copyFieldsRelease r fs = (r, none) := by
  induction fs with
  | nil => rfl
  | cons f rest ih =>
    unfold copyFieldsRelease
    rw [copyField1_fix (hall f (List.mem_cons_self _ _))]
    exact ih (fun f0 hf0 => hall f0 (List.mem_cons_of_mem _ hf0))

theorem copyFieldsRelease_idem {V : Type} [DecidableEq V] {r r' : SRelease V}
    {fs : List String} (h : copyFieldsRelease r fs = (r', none)) :
    copyFieldsRelease r' fs = (r', none) :=
  copyFieldsRelease_of_inv (copyFieldsRelease_inv h).2

/-- C7: `seano_copy_note_fields_to_releases` is idempotent — after a
successful run, running it again succeeds and changes nothing, because every
value written by the first run serves as the privileged base on the second;
and a field carried by none of a release's notes is left untouched. -/
theorem copy_note_fields_idempotent :
    (∀ (V : Type) (inst : DecidableEq V) (rs rs' : List (SRelease V))
        (fs : List String),
      @seano_copy_note_fields_to_releases V inst rs fs = (rs', none) →
      @seano_copy_note_fields_to_releases V inst rs' fs = (rs', none)) ∧
    (∀ (V : Type) (inst : DecidableEq V) (r : SRelease V) (f : String),
      noteValues r f = [] → @copyField1 V inst r f = Except.ok r) := by
  constructor
  · intro V inst rs rs' fs h
    induction rs generalizing rs' with
    | nil =>
      unfold seano_copy_note_fields_to_releases at h
      cases h
      rfl
    | cons r rest ih =>
      unfold seano_copy_note_fields_to_releases at h
      cases hc : copyFieldsRelease r fs with
      | mk r1 oe =>
        rw [hc] at h
        cases oe with
        | some e => simp at h
        | none =>
          cases hrest : seano_copy_note_fields_to_releases rest fs with
          | mk rest1 oe1 =>
            rw [hrest] at h
            simp only at h
            injection h with h1 h2
            subst h2
            subst h1
            unfold seano_copy_note_fields_to_releases
            rw [copyFieldsRelease_idem hc, ih rest1 hrest]
  · intro V inst r f h
    exact copyField1_fix (Or.inl h)

/-- C7 witness: a single release whose note sets `f = 5`; the second run
returns the first run's output unchanged, and a field absent from all notes is
untouched. -/
theorem copy_note_fields_idempotent_witness :
    seano_copy_note_fields_to_releases
        [(⟨"R1", [], [[("f", 5)]], [("f", 5)]⟩ : SRelease Nat)] ["f"]
      = ([⟨"R1", [], [[("f", 5)]], [("f", 5)]⟩], none) ∧
    copyField1 (⟨"R0", [], [], [("g", 1)]⟩ : SRelease Nat) "f"
      = Except.ok ⟨"R0", [], [], [("g", 1)]⟩ :=
  ⟨copy_note_fields_idempotent.1 Nat instDecidableEqNat
      [⟨"R1", [], [[("f", 5)]], []⟩] [⟨"R1", [], [[("f", 5)]], [("f", 5)]⟩]
      ["f"] (by decide),
   copy_note_fields_idempotent.2 Nat instDecidableEqNat
      ⟨"R0", [], [], [("g", 1)]⟩ "f" rfl⟩

/-! ## C1: backstory coloring -/

theorem lookupA_setA_isSome {β : Type} (σ : List (String × β)) (n m : String)
    (b : β) (h : (lookupA σ m).isSome) :
    (lookupA (setA σ n b) m).isSome := by
  by_cases hm : m = n
  · subst hm
    rw [lookupA_setA_self]
    rfl
  · rw [lookupA_setA_other _ _ _ _ hm]
    exact h

/-- Head decomposition of reachability: a node reachable from `n` is `n`
itself or reachable from one of `n`'s parents. -/
theorem reachB_head {g : String → List (String × Bool)} {n m : String}
    (h : ReachB g n m) :
    m = n ∨ ∃ p t, (p, t) ∈ g n ∧ ReachB g p m := by
  induction h with
  | refl => exact Or.inl rfl
  | step hr hmem ih =>
    rename_i k mm t
    rcases ih with h' | ⟨p, t', hpt, hr'⟩
    · subst h'
      exact Or.inr ⟨mm, t, hmem, ReachB.refl⟩
    · exact Or.inr ⟨p, t', hpt, ReachB.step hr' hmem⟩

theorem tagged_names_mem {g : String → List (String × Bool)} {n m : String}
    (h : m ∈ ((g n).filter (fun e => e.2)).map (fun e => e.1)) :
    (m, true) ∈ g n := by
  obtain ⟨e, he, heq⟩ := List.mem_map.mp h
  obtain ⟨e1, e2⟩ := e
  have h2 : e2 = true := by simpa using List.of_mem_filter he
  have h1 := List.mem_of_mem_filter he
  simp only at heq
  subst heq
  subst h2
  exact h1

theorem plain_names_mem {g : String → List (String × Bool)} {n m : String}
    (h : m ∈ ((g n).filter (fun e => !e.2)).map (fun e => e.1)) :
    (m, false) ∈ g n := by
  obtain ⟨e, he, heq⟩ := List.mem_map.mp h
  obtain ⟨e1, e2⟩ := e
  have h2 : e2 = false := by simpa using List.of_mem_filter he
  have h1 := List.mem_of_mem_filter he
  simp only at heq
  subst heq
  subst h2
  exact h1

/-- Inversion for `PathTo`: a path ends at the start with tag status `false`,
or extends a path by one `after` edge. -/
theorem pathTo_cases {g : String → List (String × Bool)} {start m : String}
    {c : Bool} (h : PathTo g start m c) :
    (m = start ∧ c = false) ∨
      ∃ n b t, PathTo g start n b ∧ (m, t) ∈ g n ∧ c = (b || t) := by
  cases h with
  | refl => exact Or.inl ⟨rfl, rfl⟩
  | step hp hmem => exact Or.inr ⟨_, _, _, hp, hmem, rfl⟩

theorem edge_in_tagged_or_plain {g : String → List (String × Bool)}
    {n m : String} {t : Bool} (h : (m, t) ∈ g n) :
    (t = true ∧ m ∈ ((g n).filter (fun e => e.2)).map (fun e => e.1)) ∨
    (t = false ∧ m ∈ ((g n).filter (fun e => !e.2)).map (fun e => e.1)) := by
  cases t with
  | true =>
    refine Or.inl ⟨rfl, List.mem_map.mpr ⟨(m, true), ?_, rfl⟩⟩
    exact List.mem_filter.mpr ⟨h, rfl⟩
  | false =>
    refine Or.inr ⟨rfl, List.mem_map.mpr ⟨(m, false), ?_, rfl⟩⟩
    exact List.mem_filter.mpr ⟨h, rfl⟩

/-- Painting never unsets a flag: keys present in the state stay present. -/
theorem paintStep_mono (g : String → List (String × Bool)) :
    ∀ (fu : Nat) (σ : List (String × Bool)) (task : PaintTask)
      (σ' : List (String × Bool)), paintStep g fu σ task = some σ' →
      ∀ m, (lookupA σ m).isSome → (lookupA σ' m).isSome := by
  intro fu
  induction fu with
  | zero => intro σ task σ' h; cases h
  | succ fu ih =>
    intro σ task σ' h m hm
    cases task with
    | one n b =>
      simp only [paintStep] at h
      cases h1 : paintStep g fu (setA σ n b)
          (.many (((g n).filter (fun e => e.2)).map (fun e => e.1)) true) with
      | none => rw [h1] at h; cases h
      | some σ2 =>
        rw [h1] at h
        exact ih σ2 _ σ' h m (ih _ _ σ2 h1 m (lookupA_setA_isSome σ n m b hm))
    | many ms b =>
      cases ms with
      | nil =>
        simp only [paintStep] at h
        cases h
        exact hm
      | cons x xs =>
        simp only [paintStep] at h
        cases h1 : paintStep g fu σ (.one x b) with
        | none => rw [h1] at h; cases h
        | some σ1 =>
          rw [h1] at h
          exact ih σ1 _ σ' h m (ih σ _ σ1 h1 m hm)

/-- Soundness of the traversal: every flag in the final state is the
backstory-tag status of an actual ancestor path from the start (provided every
pending task is justified by such a path, as the entry call is). -/
theorem paintStep_sound (g : String → List (String × Bool)) (start : String) :
    ∀ (fu : Nat) (σ : List (String × Bool)) (task : PaintTask)
      (σ' : List (String × Bool)), paintStep g fu σ task = some σ' →
      (match task with
       | .one n b => PathTo g start n b
       | .many ms b => ∀ x ∈ ms, PathTo g start x b) →
      (∀ m c, lookupA σ m = some c → PathTo g start m c) →
      ∀ m c, lookupA σ' m = some c → PathTo g start m c := by
  intro fu
  induction fu with
  | zero => intro σ task σ' h; cases h
  | succ fu ih =>
    intro σ task σ' h hjust hsound
    cases task with
    | one n b =>
      simp only [paintStep] at h
      cases h1 : paintStep g fu (setA σ n b)
          (.many (((g n).filter (fun e => e.2)).map (fun e => e.1)) true) with
      | none => rw [h1] at h; cases h
      | some σ2 =>
        rw [h1] at h
        have hσ1 : ∀ m c, lookupA (setA σ n b) m = some c →
            PathTo g start m c := by
          intro m c hmc
          by_cases hm : m = n
          · subst hm
            rw [lookupA_setA_self] at hmc
            cases hmc
            exact hjust
          · rw [lookupA_setA_other _ _ _ _ hm] at hmc
            exact hsound m c hmc
        have hσ2 : ∀ m c, lookupA σ2 m = some c → PathTo g start m c := by
          refine ih _ _ _ h1 ?_ hσ1
          intro x hx
          have := PathTo.step hjust (tagged_names_mem hx)
          simpa using this
        refine ih _ _ _ h ?_ hσ2
        intro x hx
        have := PathTo.step hjust (plain_names_mem hx)
        simpa using this
    | many ms b =>
      cases ms with
      | nil =>
        simp only [paintStep] at h
        cases h
        exact hsound
      | cons x xs =>
        simp only [paintStep] at h
        cases h1 : paintStep g fu σ (.one x b) with
        | none => rw [h1] at h; cases h
        | some σ1 =>
          rw [h1] at h
          have hσ1 := ih σ _ σ1 h1 (hjust x (List.mem_cons_self _ _)) hsound
          exact ih σ1 _ σ' h (fun y hy => hjust y (List.mem_cons_of_mem _ hy))
            hσ1

/-- Completeness of the traversal: a successful run paints every release
reachable from its task. -/
theorem paintStep_paints (g : String → List (String × Bool)) :
    ∀ (fu : Nat) (σ : List (String × Bool)) (task : PaintTask)
      (σ' : List (String × Bool)), paintStep g fu σ task = some σ' →
      (match task with
       | .one n _ => ∀ m, ReachB g n m → (lookupA σ' m).isSome
       | .many ms _ => ∀ x ∈ ms, ∀ m, ReachB g x m →
           (lookupA σ' m).isSome) := by
  intro fu
  induction fu with
  | zero => intro σ task σ' h; cases h
  | succ fu ih =>
    intro σ task σ' h
    cases task with
    | one n b =>
      simp only [paintStep] at h
      cases h1 : paintStep g fu (setA σ n b)
          (.many (((g n).filter (fun e => e.2)).map (fun e => e.1)) true) with
      | none => rw [h1] at h; cases h
      | some σ2 =>
        rw [h1] at h
        intro m hreach
        rcases reachB_head hreach with heq | ⟨p, t, hpt, hr⟩
        · have hn1 : (lookupA (setA σ n b) n).isSome := by
            rw [lookupA_setA_self]; rfl
          rw [heq]
          exact paintStep_mono g fu σ2 _ σ' h n
            (paintStep_mono g fu _ _ σ2 h1 n hn1)
        · rcases edge_in_tagged_or_plain hpt with ⟨_, hmem⟩ | ⟨_, hmem⟩
          · have := ih _ _ σ2 h1 p hmem m hr
            exact paintStep_mono g fu σ2 _ σ' h m this
          · exact ih σ2 _ σ' h p hmem m hr
    | many ms b =>
      cases ms with
      | nil =>
        simp only [paintStep] at h
        intro x hx
        simp at hx
      | cons x xs =>
        simp only [paintStep] at h
        cases h1 : paintStep g fu σ (.one x b) with
        | none => rw [h1] at h; cases h
        | some σ1 =>
          rw [h1] at h
          intro y hy m hreach
          rcases List.mem_cons.mp hy with heq | hmem
          · subst heq
            exact paintStep_mono g fu σ1 _ σ' h m (ih σ _ σ1 h1 m hreach)
          · exact ih σ1 _ σ' h y hmem m hreach

/-- C1 (amended): after `seano_paint_backstory_releases`, every painted flag
equals the backstory-tag status of an actual ancestor path from the start (the
flag is overwritten on every visit, so the surviving value is the one of the
last visiting path — it is not sticky), and every ancestor reachable from the
start is painted.  Consequently an ancestor all of whose paths from the start
are backstory-tagged ends `true`, and one none of whose paths are tagged ends
`false`; an ancestor reachable both ways ends with whichever path visited
last. -/
theorem backstory_paint_characterization (g : String → List (String × Bool))
    (start : String) (fuel : Nat) (σ' : List (String × Bool))
    (h : seano_paint_backstory_releases g start fuel = some σ') :
    (∀ m c, lookupA σ' m = some c → PathTo g start m c) ∧
    (∀ m, ReachB g start m → (lookupA σ' m).isSome) ∧
    (∀ m, ReachB g start m → (∀ c, PathTo g start m c → c = true) →
      lookupA σ' m = some true) ∧
    (∀ m, ReachB g start m → (∀ c, PathTo g start m c → c = false) →
      lookupA σ' m = some false) := by
  have hsound : ∀ m c, lookupA σ' m = some c → PathTo g start m c := by
    refine paintStep_sound g start fuel [] (.one start false) σ' h
      PathTo.refl ?_
    intro m c hmc
    simp [lookupA] at hmc
  have hpaints : ∀ m, ReachB g start m → (lookupA σ' m).isSome :=
    paintStep_paints g fuel [] (.one start false) σ' h
  refine ⟨hsound, hpaints, ?_, ?_⟩
  · intro m hreach hall
    obtain ⟨c, hc⟩ := Option.isSome_iff_exists.mp (hpaints m hreach)
    rw [hc, hall c (hsound m c hc)]
  · intro m hreach hall
    obtain ⟨c, hc⟩ := Option.isSome_iff_exists.mp (hpaints m hreach)
    rw [hc, hall c (hsound m c hc)]

/-- C1 counterexample: in the DAG `X →(plain) P1 →(tagged) Y`,
`X →(plain) P2 →(plain) Y`, the ancestor `Y` is reachable from `X` both via a
backstory-tagged path and via a plain path, yet the traversal leaves
`Y.is-backstory = false`: the plain visit through `P2` comes last and
overwrites the `true` set by the earlier visit through `P1` — the flag is not
sticky. -/
theorem backstory_sticky_true_fails :
    (seano_paint_backstory_releases gBackCex "X" 10).bind
        (fun σ => lookupA σ "Y") = some false ∧
    PathTo gBackCex "X" "Y" true ∧ PathTo gBackCex "X" "Y" false := by
  refine ⟨rfl, ?_, ?_⟩
  · have h1 : PathTo gBackCex "X" "P1" false := by
      have := PathTo.step
        (show PathTo gBackCex "X" "X" false from PathTo.refl)
        (show ("P1", false) ∈ gBackCex "X" by decide)
      simpa using this
    have := PathTo.step h1 (show ("Y", true) ∈ gBackCex "P1" by decide)
    simpa using this
  · have h1 : PathTo gBackCex "X" "P2" false := by
      have := PathTo.step
        (show PathTo gBackCex "X" "X" false from PathTo.refl)
        (show ("P2", false) ∈ gBackCex "X" by decide)
      simpa using this
    have := PathTo.step h1 (show ("Y", false) ∈ gBackCex "P2" by decide)
    simpa using this

/-- C1 witness: in the single-edge DAG `X →(tagged) Y`, every path to `Y` is
backstory-tagged and the paint leaves `Y` flagged `true`. -/
theorem backstory_paint_characterization_witness :
    lookupA ((seano_paint_backstory_releases gBackW "X" 10).getD []) "Y"
      = some true := by
  have hreach : ReachB gBackW "X" "Y" :=
    ReachB.step ReachB.refl (show ("Y", true) ∈ gBackW "X" by decide)
  have hall : ∀ c, PathTo gBackW "X" "Y" c → c = true := by
    intro c hc
    rcases pathTo_cases hc with ⟨h1, _⟩ | ⟨n, b, t, hp, hmem, hct⟩
    · exact absurd h1 (by decide)
    · by_cases hn : n = "X"
      · subst hn
        have ht : t = true := by
          simpa [gBackW] using hmem
        subst ht
        simp [hct]
      · simp [gBackW, hn] at hmem
  exact (backstory_paint_characterization gBackW "X" 10
    [("X", false), ("Y", true)] rfl).2.2.1 "Y" hreach hall

/-! ## C5: transitive reduction -/

/-- Inversion for the declarative closure. -/
theorem ancRefl_iff (g : String → List String) (n m : String) :
    AncRefl g n m ↔ m = n ∨ ∃ p ∈ g n, AncRefl g p m := by
  constructor
  · intro h
    cases h with
    | refl => exact Or.inl rfl
    | step hp hr => exact Or.inr ⟨_, hp, hr⟩
  · rintro (rfl | ⟨p, hp, hr⟩)
    · exact AncRefl.refl m
    · exact AncRefl.step hp hr

theorem ancRefl_trans {g : String → List String} {a b c : String}
    (hab : AncRefl g a b) (hbc : AncRefl g b c) : AncRefl g a c := by
  induction hab with
  | refl => exact hbc
  | step hp _ ih => exact AncRefl.step hp (ih hbc)

/-- The computed closure is exactly the declarative one: membership in a
successful `closStep` result coincides with `AncRefl` (for a node task) or
with reachability from some member (for a list task). -/
theorem closStep_spec (g : String → List String) :
    ∀ (fu : Nat) (task : ClosTask) (s : List String),
      closStep g fu task = some s →
      ∀ m, m ∈ s ↔
        (match task with
         | .node n => AncRefl g n m
         | .nodes l => ∃ p ∈ l, AncRefl g p m) := by
  intro fu
  induction fu with
  | zero => intro task s h; cases h
  | succ fu ih =>
    intro task s h m
    cases task with
    | node n =>
      simp only [closStep] at h
      cases h1 : closStep g fu (.nodes (g n)) with
      | none => rw [h1] at h; cases h
      | some t =>
        rw [h1] at h
        simp only [Option.map_some'] at h
        cases h
        show m ∈ n :: t ↔ AncRefl g n m
        rw [ancRefl_iff]
        simp only [List.mem_cons]
        constructor
        · rintro (rfl | hm)
          · exact Or.inl rfl
          · exact Or.inr ((ih _ t h1 m).mp hm)
        · rintro (rfl | hp)
          · exact Or.inl rfl
          · exact Or.inr ((ih _ t h1 m).mpr hp)
    | nodes l =>
      cases l with
      | nil =>
        simp only [closStep] at h
        cases h
        show m ∈ ([] : List String) ↔ ∃ p ∈ ([] : List String), AncRefl g p m
        simp
      | cons p ps =>
        simp only [closStep] at h
        cases h1 : closStep g fu (.node p) with
        | none => rw [h1] at h; cases h
        | some s1 =>
          rw [h1] at h
          cases h2 : closStep g fu (.nodes ps) with
          | none => rw [h2] at h; cases h
          | some s2 =>
            rw [h2] at h
            simp only [Option.some_bind, Option.map_some'] at h
            cases h
            show m ∈ s1 ++ s2 ↔ ∃ q ∈ p :: ps, AncRefl g q m
            simp only [List.mem_append, List.mem_cons]
            constructor
            · rintro (hm | hm)
              · exact ⟨p, Or.inl rfl, (ih _ s1 h1 m).mp hm⟩
              · obtain ⟨q, hq, hr⟩ := (ih _ s2 h2 m).mp hm
                exact ⟨q, Or.inr hq, hr⟩
            · rintro ⟨q, hq | hq, hr⟩
              · subst hq
                exact Or.inl ((ih _ s1 h1 m).mpr hr)
              · exact Or.inr ((ih _ s2 h2 m).mpr ⟨q, hq, hr⟩)

/-- Every member of a successful closure admits its own successful closure at
strictly smaller fuel (except the root itself): acyclicity in rank form. -/
theorem closStep_rank (g : String → List String) :
    ∀ (fu : Nat) (task : ClosTask) (s : List String),
      closStep g fu task = some s →
      ∀ m ∈ s,
        (match task with
         | .node n => m = n ∨ ∃ f' < fu, (closStep g f' (.node m)).isSome
         | .nodes _ => ∃ f' < fu, (closStep g f' (.node m)).isSome) := by
  intro fu
  induction fu with
  | zero => intro task s h; cases h
  | succ fu ih =>
    intro task s h m hm
    cases task with
    | node n =>
      simp only [closStep] at h
      cases h1 : closStep g fu (.nodes (g n)) with
      | none => rw [h1] at h; cases h
      | some t =>
        rw [h1] at h
        simp only [Option.map_some'] at h
        cases h
        rcases List.mem_cons.mp hm with rfl | hmt
        · exact Or.inl rfl
        · obtain ⟨f', hf', hs⟩ := ih _ t h1 m hmt
          exact Or.inr ⟨f', Nat.lt_succ_of_lt hf', hs⟩
    | nodes l =>
      cases l with
      | nil =>
        simp only [closStep] at h
        cases h
        simp at hm
      | cons p ps =>
        simp only [closStep] at h
        cases h1 : closStep g fu (.node p) with
        | none => rw [h1] at h; cases h
        | some s1 =>
          rw [h1] at h
          cases h2 : closStep g fu (.nodes ps) with
          | none => rw [h2] at h; cases h
          | some s2 =>
            rw [h2] at h
            simp only [Option.some_bind, Option.map_some'] at h
            cases h
            rcases List.mem_append.mp hm with hm1 | hm2
            · rcases ih _ s1 h1 m hm1 with rfl | ⟨f', hf', hs⟩
              · exact ⟨fu, Nat.lt_succ_self fu, by rw [h1]; rfl⟩
              · exact ⟨f', Nat.lt_succ_of_lt hf', hs⟩
            · obtain ⟨f', hf', hs⟩ := ih _ s2 h2 m hm2
              exact ⟨f', Nat.lt_succ_of_lt hf', hs⟩

/-- Closure success propagates downward along `AncRefl`. -/
theorem closStep_success_of_ancRefl {g : String → List String} {n m : String}
    {fu : Nat} (hr : AncRefl g n m) (hs : (closStep g fu (.node n)).isSome) :
    ∃ f', (closStep g f' (.node m)).isSome := by
  obtain ⟨s, hsome⟩ := Option.isSome_iff_exists.mp hs
  have hm : m ∈ s := (closStep_spec g fu (.node n) s hsome m).mpr hr
  rcases closStep_rank g fu (.node n) s hsome m hm with rfl | ⟨f', _, hs'⟩
  · exact ⟨fu, hs⟩
  · exact ⟨f', hs'⟩

/-- Strict closure membership strictly lowers the least sufficient fuel. -/
theorem mu_lt {g : String → List String} {a b : String}
    (hex_a : ∃ f, (closStep g f (.node a)).isSome = true)
    (hex_b : ∃ f, (closStep g f (.node b)).isSome = true)
    (hr : AncRefl g a b) (hne : b ≠ a) :
    Nat.find hex_b < Nat.find hex_a := by
  obtain ⟨s, hsome⟩ := Option.isSome_iff_exists.mp (Nat.find_spec hex_a)
  have hm : b ∈ s := (closStep_spec g _ (.node a) s hsome b).mpr hr
  rcases closStep_rank g _ (.node a) s hsome b hm with rfl | ⟨f', hf', hs'⟩
  · exact absurd rfl hne
  · exact Nat.lt_of_le_of_lt (Nat.find_le hs') hf'

/-- Antisymmetry of the closure on nodes whose closure terminates: the DAG
seen through successful closures is acyclic. -/
theorem ancRefl_antisymm {g : String → List String} {a b : String}
    (hex_a : ∃ f, (closStep g f (.node a)).isSome = true)
    (hex_b : ∃ f, (closStep g f (.node b)).isSome = true)
    (hab : AncRefl g a b) (hba : AncRefl g b a) : a = b := by
  by_contra hne
  have h1 := mu_lt hex_a hex_b hab (fun hh => hne hh.symm)
  have h2 := mu_lt hex_b hex_a hba (fun hh => hne hh)
  omega

/-- Every transitively-redundant parent is in the closure of some parent that
is itself not redundant (a maximal one in the ancestor order): the witness the
removal loop still finds after earlier removals. -/
theorem exists_keeper (g : String → List String) (parents : List String)
    (fuel : Nat)
    (hc : ∀ p ∈ parents, (closStep g fuel (.node p)).isSome = true)
    {c : String} (hcr : ∃ p ∈ parents, p ≠ c ∧ AncRefl g p c) :
    ∃ k ∈ parents, (¬∃ q ∈ parents, q ≠ k ∧ AncRefl g q k) ∧ k ≠ c ∧
      AncRefl g k c := by
  obtain ⟨p0, hp0, hp0c, hp0r⟩ := hcr
  haveI hfin : Finite {x : String // x ∈ parents} :=
    (parents.finite_toSet).to_subtype
  have hex : ∀ x : {x : String // x ∈ parents},
      ∃ f, (closStep g f (.node x.1)).isSome = true :=
    fun x => ⟨fuel, hc x.1 x.2⟩
  let r : {x : String // x ∈ parents} → {x : String // x ∈ parents} → Prop :=
    fun a b => AncRefl g a.1 b.1 ∧ a.1 ≠ b.1
  haveI : IsTrans {x : String // x ∈ parents} r := by
    refine ⟨fun a b c hab hbc => ⟨ancRefl_trans hab.1 hbc.1, fun he => ?_⟩⟩
    have hba : AncRefl g b.1 a.1 := he ▸ hbc.1
    exact hab.2 (ancRefl_antisymm (hex a) (hex b) hab.1 hba)
  haveI : IsIrrefl {x : String // x ∈ parents} r :=
    ⟨fun a ha => ha.2 rfl⟩
  have wf : WellFounded r := Finite.wellFounded_of_trans_of_irrefl r
  obtain ⟨m, hmS, hmin⟩ := wf.has_min
    {x : {x : String // x ∈ parents} | AncRefl g x.1 c ∧ x.1 ≠ c}
    ⟨⟨p0, hp0⟩, hp0r, hp0c⟩
  refine ⟨m.1, m.2, ?_, hmS.2, hmS.1⟩
  rintro ⟨q, hq, hqm, hqr⟩
  have hqc : AncRefl g q c := ancRefl_trans hqr hmS.1
  have hqc_ne : q ≠ c := by
    intro he
    subst he
    exact hqm (ancRefl_antisymm ⟨fuel, hc q hq⟩ (hex m) hqr hmS.1)
  exact hmin ⟨q, hq⟩ ⟨hqc, hqc_ne⟩ ⟨hqr, hqm⟩

/-- A duplicate-free sublist with a characterised membership is the filter. -/
theorem sublist_eq_filter {α : Type} {l r : List α} (p : α → Bool)
    (hs : r.Sublist l) (hnd : l.Nodup)
    (hm : ∀ x, x ∈ r ↔ x ∈ l ∧ p x = true) : r = l.filter p := by
  induction hs with
  | slnil =>
    symm
    rw [List.filter_eq_nil_iff]
    intro a ha
    intro hp
    exact absurd ((hm a).mpr ⟨ha, hp⟩) (List.not_mem_nil a)
  | @cons r' l' a hsub ih =>
    have hal : a ∉ l' := (List.nodup_cons.mp hnd).1
    have hpa : p a = false := by
      by_contra hpa
      have := (hm a).mpr ⟨List.mem_cons_self _ _, by simpa using hpa⟩
      exact hal (hsub.mem this)
    rw [List.filter_cons_of_neg (by simp [hpa])]
    refine ih (List.nodup_cons.mp hnd).2 (fun x => ?_)
    rw [hm x]
    constructor
    · rintro ⟨hx, hp⟩
      rcases List.mem_cons.mp hx with rfl | hx'
      · rw [hpa] at hp; cases hp
      · exact ⟨hx', hp⟩
    · rintro ⟨hx, hp⟩
      exact ⟨List.mem_cons_of_mem _ hx, hp⟩
  | @cons₂ r' l' a hsub ih =>
    have hal : a ∉ l' := (List.nodup_cons.mp hnd).1
    have hpa : p a = true :=
      ((hm a).mp (List.mem_cons_self _ _)).2
    rw [List.filter_cons_of_pos (by simpa using hpa)]
    have har' : a ∉ r' := fun ha => hal (hsub.mem ha)
    congr 1
    refine ih (List.nodup_cons.mp hnd).2 (fun x => ?_)
    constructor
    · intro hx
      have := (hm x).mp (List.mem_cons_of_mem _ hx)
      rcases List.mem_cons.mp this.1 with rfl | hx'
      · exact absurd hx har'
      · exact ⟨hx', this.2⟩
    · rintro ⟨hx, hp⟩
      have := (hm x).mpr ⟨List.mem_cons_of_mem _ hx, hp⟩
      rcases List.mem_cons.mp this with rfl | hx'
      · exact absurd hx hal
      · exact hx'

/-- The removal loop of `get_non_transitive_parents` computes exactly the
simultaneous filter: starting from the full parent list, iterating candidates
in order and testing each against the closures of the *current* survivors
removes precisely the parents reachable through the closure of a different
parent. -/
theorem ntpLoop_spec (g : String → List String) (fuel : Nat)
    (parents : List String) (kb : String → Bool)
    (hnd : parents.Nodup)
    (hkb : ∀ x ∈ parents,
      (kb x = true ↔ ¬∃ q ∈ parents, q ≠ x ∧ AncRefl g q x))
    (hc : ∀ p ∈ parents, (closStep g fuel (.node p)).isSome = true) :
    ∀ (todo result res : List String),
      ntpLoop g fuel todo result = some res →
      result.Sublist parents →
      (∀ x ∈ parents, (¬∃ q ∈ parents, q ≠ x ∧ AncRefl g q x) →
        x ∈ result) →
      (∀ x ∈ result, x ∈ todo ∨ (¬∃ q ∈ parents, q ≠ x ∧ AncRefl g q x)) →
      (∀ x ∈ todo, x ∈ result) →
      todo.Nodup →
      res = parents.filter kb := by
  intro todo
  induction todo with
  | nil =>
    intro result res h hsub hkeep hproc _ _
    simp only [ntpLoop] at h
    cases h
    refine sublist_eq_filter kb hsub hnd (fun x => ?_)
    constructor
    · intro hx
      have hxp := hsub.mem hx
      have hK := (hproc x hx).resolve_left (List.not_mem_nil x)
      exact ⟨hxp, (hkb x hxp).mpr hK⟩
    · rintro ⟨hxp, hpx⟩
      exact hkeep x hxp ((hkb x hxp).mp hpx)
  | cons c rest ih =>
    intro result res h hsub hkeep hproc htodo hndt
    simp only [ntpLoop] at h
    cases hu : ancClosureL g fuel (result.filter (fun x => decide (x ≠ c))) with
    | none => rw [hu] at h; cases h
    | some u =>
      rw [hu] at h
      have h' : ntpLoop g fuel rest
          (if c ∈ u then result.erase c else result) = some res := h
      have hu_spec : ∀ m, m ∈ u ↔
          ∃ p ∈ result.filter (fun x => decide (x ≠ c)), AncRefl g p m :=
        closStep_spec g fuel _ u hu
      have hresnd : result.Nodup := hsub.nodup hnd
      by_cases hKc : ¬∃ q ∈ parents, q ≠ c ∧ AncRefl g q c
      · -- keeper: the test fails, result unchanged
        have hcu : c ∉ u := by
          intro hcu
          obtain ⟨p, hp, hpr⟩ := (hu_spec c).mp hcu
          have hpmem := List.mem_of_mem_filter hp
          have hpne : p ≠ c := by simpa using List.of_mem_filter hp
          exact hKc ⟨p, hsub.mem hpmem, hpne, hpr⟩
        rw [if_neg hcu] at h'
        refine ih result res h' hsub hkeep ?_ ?_ hndt.of_cons
        · intro x hx
          rcases hproc x hx with hxt | hK
          · rcases List.mem_cons.mp hxt with rfl | hxr
            · exact Or.inr hKc
            · exact Or.inl hxr
          · exact Or.inr hK
        · intro x hx
          exact htodo x (List.mem_cons_of_mem _ hx)
      · -- redundant: some keeper witnesses the removal
        push_neg at hKc
        obtain ⟨q0, hq0, hq0c, hq0r⟩ := hKc
        obtain ⟨k, hkmem, hkK, hkc, hkr⟩ :=
          exists_keeper g parents fuel hc ⟨q0, hq0, hq0c, hq0r⟩
        have hkres : k ∈ result := hkeep k hkmem hkK
        have hcu : c ∈ u := by
          refine (hu_spec c).mpr ⟨k, ?_, hkr⟩
          exact List.mem_filter.mpr ⟨hkres, by simpa using hkc⟩
        rw [if_pos hcu] at h'
        have hcres : c ∈ result := htodo c (List.mem_cons_self _ _)
        refine ih (result.erase c) res h'
          ((List.erase_sublist c result).trans hsub) ?_ ?_ ?_ hndt.of_cons
        · intro x hxp hK
          have hxres := hkeep x hxp hK
          have hxc : x ≠ c := by
            rintro rfl
            exact hK ⟨q0, hq0, hq0c, hq0r⟩
          exact (hresnd.mem_erase_iff.mpr ⟨hxc, hxres⟩)
        · intro x hx
          have hxres := List.mem_of_mem_erase hx
          have hxc : x ≠ c := (hresnd.mem_erase_iff.mp hx).1
          rcases hproc x hxres with hxt | hK
          · rcases List.mem_cons.mp hxt with rfl | hxr
            · exact absurd rfl hxc
            · exact Or.inl hxr
          · exact Or.inr hK
        · intro x hx
          have hxres := htodo x (List.mem_cons_of_mem _ hx)
          have hxc : x ≠ c := by
            rintro rfl
            exact (List.nodup_cons.mp hndt).1 hx
          exact hresnd.mem_erase_iff.mpr ⟨hxc, hxres⟩

/-- C5: for a duplicate-free parent list whose members' ancestor closures all
terminate at the given fuel, the non-transitive parents of `n` equal the
direct parents of `n` minus every parent reachable through the ancestor
closure of a *different* direct parent (never through its own), in order.  In
particular (witness) the diamond `A→B→D, A→C→D` keeps both parents of `D`. -/
theorem non_transitive_parents_eq_filter (g : String → List String)
    (fuel : Nat) (n : String) (res : List String)
    (h : get_non_transitive_parents g fuel n = some res)
    (hnd : (g n).Nodup)
    (hc : ∀ p ∈ g n, (get_ancestor_inheritance g fuel p).isSome = true) :
    res = (g n).filter (fun c => decide (∀ p ∈ g n, p = c ∨
      c ∉ (get_ancestor_inheritance g fuel p).getD [])) := by
  have hkb : ∀ x ∈ g n,
      ((fun c => decide (∀ p ∈ g n, p = c ∨
        c ∉ (get_ancestor_inheritance g fuel p).getD [])) x = true ↔
        ¬∃ q ∈ g n, q ≠ x ∧ AncRefl g q x) := by
    intro x _
    rw [decide_eq_true_iff]
    constructor
    · intro hall
      rintro ⟨q, hq, hqx, hqr⟩
      obtain ⟨s, hsome⟩ := Option.isSome_iff_exists.mp (hc q hq)
      rcases hall q hq with rfl | hnot
      · exact hqx rfl
      · rw [hsome] at hnot
        exact hnot ((closStep_spec g fuel (.node q) s hsome x).mpr hqr)
    · intro hnone p hp
      by_cases hpx : p = x
      · exact Or.inl hpx
      · refine Or.inr ?_
        intro hmem
        obtain ⟨s, hsome⟩ := Option.isSome_iff_exists.mp (hc p hp)
        rw [hsome] at hmem
        exact hnone ⟨p, hp, hpx,
          (closStep_spec g fuel (.node p) s hsome x).mp hmem⟩
  exact ntpLoop_spec g fuel (g n) _ hnd hkb hc (g n) (g n) res h
    (List.Sublist.refl _) (fun x hx _ => hx) (fun x hx => Or.inl hx)
    (fun x hx => hx) hnd

/-- C5 witness: the diamond `A→B→D, A→C→D` — `D`'s non-transitive parents are
`[B, C]`, matching the filter (neither parent lies in the other's closure). -/
theorem non_transitive_parents_eq_filter_witness :
    (["B", "C"] : List String) = (gDiamond "D").filter (fun c =>
      decide (∀ p ∈ gDiamond "D", p = c ∨
        c ∉ (get_ancestor_inheritance gDiamond 10 p).getD [])) :=
  non_transitive_parents_eq_filter gDiamond 10 "D" ["B", "C"] rfl
    (by decide) (by decide)

end SeanoFmt
